import Mathlib

/-!
# Verification of `perses/rjmc/geometry.py`

A shallow embedding, in Lean 4, of the parts of `perses/rjmc/geometry.py`
(geometry engine for reversible-jump Monte Carlo atom placement) that the
specification's claims are about, together with theorems settling those claims.

Conventions used throughout:

* Python float arithmetic is idealised as exact arithmetic over `ℚ` (for the
  executable fragments) or `ℝ` (where transcendental functions such as
  `np.log`, `np.sin` appear).  Transcendental library functions are passed in
  as explicit function arguments where a definition must stay executable.
* Calls into external libraries (OpenMM energy evaluation, `numpy` random
  draws, `networkx` path queries, the `coordinate_numba` conversion kernels,
  `scipy.special.logsumexp`) are modelled as explicit parameters: the
  surrounding control flow, arithmetic and bookkeeping are translated from
  the source.
* Python statements that raise (`assert`, `raise`, `ValueError`,
  `IndexError` from out-of-range indexing) are modelled by returning `none`
  from an `Option`-valued function.
* Python `set`s of atom indices are modelled as duplicate-free `List ℕ`
  (insertion via `setInsert` keeps them duplicate-free), Python dicts as
  insertion-ordered association lists.
-/

namespace PersesGeometry

/-! ## Constants (geometry.py lines 29-31) -/

/-- `LOG_ZERO = -1.0e+6` (line 29). -/
def LOG_ZERO : ℚ := -1000000

/-- `ENERGY_MISMATCH_RATIO_THRESHOLD = 1e-3` (line 30). -/
def ENERGY_MISMATCH_RATIO_THRESHOLD : ℚ := 1 / 1000

/-! ## Final energy-bookkeeping check of `_logp_propose` (lines 641-656)

After the atom-placement loop, `_logp_propose` computes
`energy_mismatch_ratio = (atoms_with_positions_reduced_potential +
reduced_potential_energy) / final_context_reduced_potential` and asserts that
the ratio lies strictly between `1 - ENERGY_MISMATCH_RATIO_THRESHOLD` and
`ENERGY_MISMATCH_RATIO_THRESHOLD + 1`; only then does it return its result
tuple.  We model the tail of `_logp_propose` from the point where the three
reduced potentials are known. -/

/-- Line 641: the ratio of the sum of the core (atoms-with-positions) reduced
potential and the accumulated growth-system reduced potential to the
final-system reduced potential. -/
def energy_mismatch_ratio (atoms_with_positions_reduced_potential
    reduced_potential_energy final_context_reduced_potential : ℚ) : ℚ :=
  (atoms_with_positions_reduced_potential + reduced_potential_energy) /
    final_context_reduced_potential

/-- Line 642: the asserted condition
`(ratio < THRESHOLD + 1) and (ratio > 1 - THRESHOLD)`. -/
def energy_mismatch_check (atoms_with_positions_reduced_potential
    reduced_potential_energy final_context_reduced_potential : ℚ) : Bool :=
  decide ( energy_mismatch_ratio atoms_with_positions_reduced_potential
      reduced_potential_energy final_context_reduced_potential <
      ENERGY_MISMATCH_RATIO_THRESHOLD + 1) &&
  decide ( energy_mismatch_ratio atoms_with_positions_reduced_potential
      reduced_potential_energy final_context_reduced_potential >
      1 - ENERGY_MISMATCH_RATIO_THRESHOLD)

/-- Lines 642-656 of `_logp_propose`: if the assertion at line 642 fails the
call raises (modelled by `none`); otherwise the function returns its result
(we retain the components relevant to the claim: the total log-probability
and the three reduced potentials). -/
def logp_propose_final (logp_proposal atoms_with_positions_reduced_potential
    reduced_potential_energy final_context_reduced_potential : ℚ) :
    Option (ℚ × ℚ × ℚ) :=
  if energy_mismatch_check atoms_with_positions_reduced_potential
      reduced_potential_energy final_context_reduced_potential then
    some (logp_proposal, atoms_with_positions_reduced_potential,
      final_context_reduced_potential)
  else none

/-! ## Log-probability accumulation in `_logp_propose` (lines 422, 577-591)

Per placed atom the loop records `logp_r`, `logp_theta`, `logp_phi` and
`log_detJ = np.log(detJ)` (line 586) and accumulates
`logp_proposal += logp_r + logp_theta + logp_phi - np.log(detJ)` (line 591),
starting from `logp_proposal = np.sum(np.array(logp_choice))` (line 422). -/

/-- The per-atom entries of `rjmc_info` that enter the total log-probability
(lines 577-588); the values stand for the floats computed during placement. -/
structure PlacementRecord where
  logp_r : ℚ
  logp_theta : ℚ
  logp_phi : ℚ
  log_detJ : ℚ
deriving DecidableEq, Repr

/-- Lines 422 and 591: the accumulated total proposal log-probability after
the placement loop, starting from the sum of the proposal-order choice
log-probabilities and adding
`logp_r + logp_theta + logp_phi - log_detJ` for each placed atom. -/
def logp_propose_accumulate (logp_choice : List ℚ)
    (placements : List PlacementRecord) : ℚ :=
  placements.foldl
    (fun logp_proposal p =>
      logp_proposal + p.logp_r + p.logp_theta + p.logp_phi - p.log_detJ)
    logp_choice.sum

/-! ## `_copy_positions` (lines 826-856) and the placement writes (line 546)

`_copy_positions` starts from a randomly initialised array (the random
initialisation is external, passed as `initial_new_positions`) and overwrites
the row of every atom that has a position with the current position of its
mapped counterpart.  The placement loop then writes `new_positions[atom.idx]`
only for newly placed atoms.  Position arrays are modelled as functions from
atom index to a position value of an arbitrary type `V`. -/

/-- Lines 843-856: `new_positions` after copying; the fold mirrors
`for atom in atoms_with_positions: new_positions[atom.idx] =
current_positions[new_to_old_atom_map[atom.idx]]`, where
`atoms_with_positions` enumerates exactly the keys of the map (line 385). -/
def copy_positions {V : Type} (new_to_old_atom_map : List (ℕ × ℕ))
    (current_positions : ℕ → V) (initial_new_positions : ℕ → V) : ℕ → V :=
  new_to_old_atom_map.foldl
    (fun new_positions kv =>
      Function.update new_positions kv.1 (current_positions kv.2))
    initial_new_positions

/-- Line 546 iterated over the placement loop:
`new_positions[atom.idx] = xyz` for each placed atom, in order. -/
def write_new_atom_positions {V : Type} (placements : List (ℕ × V))
    (positions : ℕ → V) : ℕ → V :=
  placements.foldl (fun pos p => Function.update pos p.1 p.2) positions

/-! ## Coordinate transforms `_cartesian_to_internal` (lines 1081-1137) and
`_internal_to_cartesian` (lines 1139-1193)

The numerical conversion kernels live in the external module
`perses.rjmc.coordinate_numba` and are passed in as function arguments; the
two wrappers in `geometry.py` both compute the Jacobian magnitude
`detJ = np.abs(r**2*np.sin(theta))` (lines 1130 and 1189).  `np.sin` is
likewise passed in, so that the definitions stay generic (instantiated at
`ℝ` with `Real.sin` in the theorems). -/

/-- Lines 1118-1137: call the external conversion kernel to obtain
`(r, theta, phi)` and return it together with
`detJ = np.abs(r**2*np.sin(theta))` (line 1130). -/
def cartesian_to_internal {R V : Type} [LinearOrderedField R] (npSin : R → R)
    (coordinate_numba_cartesian_to_internal : V → V → V → V → R × R × R)
    (atom_position bond_position angle_position torsion_position : V) :
    (R × R × R) × R :=
  let internal_coords := coordinate_numba_cartesian_to_internal atom_position
    bond_position angle_position torsion_position
  (internal_coords, |internal_coords.1 ^ 2 * npSin internal_coords.2.1|)

/-- Lines 1177-1193: call the external conversion kernel to obtain the new
Cartesian position and return it together with
`detJ = np.abs(r**2*np.sin(theta))` (line 1189). -/
def internal_to_cartesian {R V : Type} [LinearOrderedField R] (npSin : R → R)
    (coordinate_numba_internal_to_cartesian : V → V → V → R × R × R → V)
    (bond_position angle_position torsion_position : V) (r theta phi : R) :
    V × R :=
  (coordinate_numba_internal_to_cartesian bond_position angle_position
    torsion_position (r, theta, phi), |r ^ 2 * npSin theta|)

/-! ## NaN handling in `_torsion_log_pmf` (lines 1606-1636)

The per-division potential energies come from the external OpenMM context;
an energy that evaluates to NaN is modelled as `none`.  The unnormalised
log-probabilities are `logq[i] = -beta*potential_energy` (line 1623, NaN
propagating).  Lines 1628-1632 raise when all `n_divisions` entries are NaN
and otherwise replace the NaN entries by `-np.inf` (modelled by `⊥` in
`WithBot ℚ`); line 1636 subtracts the external `logsumexp` value from every
entry (`⊥ - z = ⊥`). -/

/-- Line 1623 over all divisions: `logq[i] = -beta*potential_energy`, with a
NaN energy (`none`) propagating to a NaN entry. -/
def torsion_logq (beta : ℚ) (potential_energies : List (Option ℚ)) :
    List (Option ℚ) :=
  potential_energies.map (fun e => e.map (fun u => -beta * u))

/-- Lines 1628-1636: raise (`none`) when the number of NaN entries equals
`n_divisions`; otherwise suppress NaN entries to `-np.inf` and subtract the
(externally computed) `logsumexp` value from each entry. -/
def torsion_log_pmf_normalize (n_divisions : ℕ) (logq : List (Option ℚ))
    (logsumexp_logq : ℚ) : Option (List (WithBot ℚ)) :=
  if logq.countP (fun x => x.isNone) = n_divisions then none
  else some (logq.map (fun x =>
    Option.elim x ⊥ (fun v => ((v - logsumexp_logq : ℚ) : WithBot ℚ))))

/-! ## Bin location rules of `_bond_logp` (lines 1293-1301) and
`_torsion_logp` (lines 1752-1758)

`_bond_logp` locates the bin *containing* a value:
`index = int((r - r_i[0])/bin_width)` after checking
`r_i[0] <= r < r_i[-1] + bin_width` (`int` truncates; on the checked range
this is the floor).  `_torsion_logp` instead uses
`index = np.argmin(np.abs(phi - phis))`, the *nearest left bin edge*.
Both then return the selected bin's log-mass minus `log(bin_width)`
(lines 1301 and 1758).  The grids are produced by
`np.linspace(lo, hi, num=n, retstep=True, endpoint=False)`, i.e. uniform
left edges `lo + i*w`; we model a general uniform grid (the actual grids
have irrational endpoints such as `-π` and `r0 ± 6σ`). -/

/-- Uniform left bin edges `x0 + i*w`, `i = 0, …, n-1`, as produced by
`np.linspace(x0, x0 + n*w, num=n, endpoint=False)`. -/
def linspace_left_edges (x0 w : ℚ) (n : ℕ) : List ℚ :=
  (List.range n).map (fun i : ℕ => x0 + (i : ℚ) * w)

/-- Line 1297 of `_bond_logp` (and identically line 1453 of `_angle_logp`):
the index of the bin containing `x`, `int((x - left_edge)/bin_width)`.  For
`x ≥ left_edge` (guaranteed by the preceding support check at line 1293)
Python's `int` truncation agrees with the floor. -/
def bond_bin_index (x x0 bin_width : ℚ) : ℤ :=
  ⌊(x - x0) / bin_width⌋

/-- Helper for `np.argmin`: scan the remaining list, keeping the index and
value of the least element seen so far; a strictly smaller element replaces
the current best, so the first occurrence of the minimum wins, as in
`numpy`. -/
def np_argmin_aux : List ℚ → ℕ → ℕ → ℚ → ℕ
  | [], _, best_index, _ => best_index
  | x :: xs, i, best_index, best_value =>
    if x < best_value then np_argmin_aux xs (i + 1) i x
    else np_argmin_aux xs (i + 1) best_index best_value

/-- `np.argmin`: index of the first occurrence of the minimum. -/
def np_argmin : List ℚ → ℕ
  | [] => 0
  | x :: xs => np_argmin_aux xs 1 0 x

/-- Line 1755 of `_torsion_logp`:
`index = np.argmin(np.abs(phi - phis))` — the index of the grid point
(left bin edge) nearest to `phi`. -/
def torsion_bin_index (phi : ℚ) (phis : List ℚ) : ℕ :=
  np_argmin (phis.map (fun p => |phi - p|))

/-! ## Nonbonded 1-4 exception routing in `GeometrySystemGenerator.__init__`
(lines 2020-2045), with the omitted-edge list from line 2837's analogue
(line 1837: `self.omitted_edges`).

`nx.algorithms.simple_paths.all_simple_paths(connectivity_graph, p1, p2,
cutoff=3)` enumerates the simple paths of at most 3 edges (hence 2, 3 or 4
nodes) between the two exception atoms; we implement this enumeration
concretely over an undirected edge list.  The comprehension at line 2028
indexes `e[0] … e[3]` of every path, so a path of fewer than 4 nodes raises
`IndexError` (modelled by `none`). -/

/-- Undirected edge query on an edge list (`nx.Graph.has_edge`). -/
def has_graph_edge (edges : List (ℕ × ℕ)) (a b : ℕ) : Bool :=
  decide ((a, b) ∈ edges) || decide ((b, a) ∈ edges)

/-- The nodes occurring in an edge list. -/
def graph_nodes (edges : List (ℕ × ℕ)) : List ℕ :=
  (edges.map Prod.fst ++ edges.map Prod.snd).dedup

/-- Model of `nx.all_simple_paths(G, source, target, cutoff=3)` on an
undirected edge list: all simple paths of 2, 3 or 4 nodes from `source` to
`target`. -/
def all_simple_paths_cutoff3 (edges : List (ℕ × ℕ)) (source target : ℕ) :
    List (List ℕ) :=
  let ns := graph_nodes edges
  (if source ≠ target ∧ has_graph_edge edges source target = true then
    [[source, target]] else []) ++
  ns.filterMap (fun x =>
    if x ≠ source ∧ x ≠ target ∧ source ≠ target ∧
        has_graph_edge edges source x = true ∧
        has_graph_edge edges x target = true then
      some [source, x, target]
    else none) ++
  (ns.flatMap (fun x => ns.filterMap (fun y =>
    if x ≠ source ∧ x ≠ target ∧ y ≠ source ∧ y ≠ target ∧ x ≠ y ∧
        source ≠ target ∧
        has_graph_edge edges source x = true ∧
        has_graph_edge edges x y = true ∧
        has_graph_edge edges y target = true then
      some [source, x, y, target]
    else none)))

/-- Line 1837: `self.omitted_edges`, the reference-graph edges that are not
present in the connectivity graph. -/
def omitted_edges_of (reference_edges connectivity_edges : List (ℕ × ℕ)) :
    List (ℕ × ℕ) :=
  reference_edges.filter
    (fun e => ¬ has_graph_edge connectivity_edges e.1 e.2 = true)

/-- Whether one of the consecutive edges of a 4-node path occurs (in either
orientation) in the omitted-edge list: line 2037's
`any((i in self.omitted_edges) or (i[::-1] in self.omitted_edges) ...)`. -/
def edge_triple_crosses_omitted (omitted_edges : List (ℕ × ℕ))
    (triple : List (ℕ × ℕ)) : Bool :=
  triple.any (fun i => decide (i ∈ omitted_edges) ||
    decide ((i.2, i.1) ∈ omitted_edges))

/-- What `GeometrySystemGenerator.__init__` does with one nonbonded
exception term. -/
inductive ExceptionFate where
  /-- Appended to `special_terms['omitted_1,4s']` and excluded. -/
  | omitted : ExceptionFate
  /-- Added to the growth system's custom bond (exception) force, carrying
  the term's growth index. -/
  | custom_bond : ℕ → ExceptionFate
  /-- Not considered: zero growth index, or zero chargeprod and epsilon. -/
  | skipped : ExceptionFate
deriving DecidableEq, Repr

/-- Lines 2020-2045: processing of one reference nonbonded exception
`(p1, p2, chargeprod, sigma, epsilon)` whose growth index has been computed.
A path of fewer than 4 nodes among `_possible_edges` makes the edge-triple
comprehension at line 2028 raise `IndexError` (modelled by `none`). -/
def process_nonbonded_exception (connectivity_edges omitted_edges :
    List (ℕ × ℕ)) (p1 p2 : ℕ) (chargeprod epsilon : ℚ) (growth_idx : ℕ) :
    Option ExceptionFate :=
  if 0 < growth_idx ∧ (chargeprod ≠ 0 ∨ epsilon ≠ 0) then
    let _possible_edges := all_simple_paths_cutoff3 connectivity_edges p1 p2
    match _possible_edges.mapM (fun e =>
      match e with
      | [a, b, c, d] => some [(a, b), (b, c), (c, d)]
      | _ => none) with
    | none => none
    | some _connectivity_edges =>
      if _connectivity_edges = [] then some .omitted
      else if _connectivity_edges.any
          (edge_triple_crosses_omitted omitted_edges) then some .omitted
      else some (.custom_bond growth_idx)
  else some .skipped

/-- Spec-side predicate for claim C8: a connectivity path of exactly 3 bonds
between the two atoms that does not cross an omitted edge. -/
def exists_clean_three_bond_path (connectivity_edges omitted_edges :
    List (ℕ × ℕ)) (p1 p2 : ℕ) : Bool :=
  (all_simple_paths_cutoff3 connectivity_edges p1 p2).any (fun p =>
    decide (p.length = 4) &&
    ! (p.zip p.tail).any (fun i => decide (i ∈ omitted_edges) ||
        decide ((i.2, i.1) ∈ omitted_edges)))

/-! ## The proposal-order planner `NetworkXProposalOrder` (lines 2234-2535)

The residue graph (with ring/cycle membership metadata from
`_perceive_ring_structures`) is fixed for one planning run.  The two
`networkx` path queries used by `produce_eligible_torsions_list` —
`nx.single_source_shortest_path(residue_graph, atom, cutoff=3)` and
`nx.all_simple_paths(residue_graph, atom, destination)` — are external
library calls and are passed in as oracles returning lists of index paths
(each path is a list of atom indices; `networkx` paths start at the queried
source atom, but no such property is assumed in the theorems).  The
`np.random.choice(range(ntorsions))` draws are modelled by an injected
stream of naturals, the drawn index being the next stream value modulo
`ntorsions`, so that every index is reachable; the stream yields `0` when
exhausted. -/

/-- The residue graph of the transforming residue together with the
precomputed ring (cycle) membership of every atom
(`_residue_to_graph` and `_perceive_ring_structures`, lines 2504-2535). -/
structure ResidueGraph where
  nodes : List ℕ
  edges : List (ℕ × ℕ)
  cycle_membership : ℕ → List ℕ

/-- Undirected edge query on the residue graph. -/
def ResidueGraph.has_edge (rg : ResidueGraph) (a b : ℕ) : Bool :=
  decide ((a, b) ∈ rg.edges) || decide ((b, a) ∈ rg.edges)

/-- The mutable connectivity graph `self._connectivity_graph`
(lines 2306-2316): nodes and undirected edges, grown as atoms are placed.
`nx.Graph` stores each undirected edge once and ignores re-insertion; we
keep an edge list queried only through the symmetric `has_edge`, so repeated
insertion is harmless. -/
structure ConnectivityGraph where
  nodes : List ℕ
  edges : List (ℕ × ℕ)
deriving DecidableEq, Repr

/-- Undirected edge query on the connectivity graph. -/
def ConnectivityGraph.has_edge (g : ConnectivityGraph) (a b : ℕ) : Bool :=
  decide ((a, b) ∈ g.edges) || decide ((b, a) ∈ g.edges)

/-- `nx.Graph.add_node`. -/
def ConnectivityGraph.add_node (g : ConnectivityGraph) (a : ℕ) :
    ConnectivityGraph :=
  { g with nodes := g.nodes ++ [a] }

/-- `nx.Graph.add_edge`. -/
def ConnectivityGraph.add_edge (g : ConnectivityGraph) (e : ℕ × ℕ) :
    ConnectivityGraph :=
  { g with edges := g.edges ++ [e] }

/-- The planner state mutated while atoms are placed: the two position sets
(`self._atoms_with_positions_set`, `self._residue_atoms_with_positions_set`)
and the connectivity graph.  Python sets are modelled as duplicate-free
lists. -/
structure PlannerState where
  atoms_with_positions_set : List ℕ
  residue_atoms_with_positions_set : List ℕ
  connectivity_graph : ConnectivityGraph
deriving DecidableEq, Repr

/-- Insertion into a Python `set` modelled as a duplicate-free list. -/
def setInsert (s : List ℕ) (x : ℕ) : List ℕ :=
  if x ∈ s then s else x :: s

/-- Python's `list.remove`: removes the first occurrence, raising
`ValueError` (here `none`) when the element is absent. -/
def eraseStrict (l : List ℕ) (x : ℕ) : Option (List ℕ) :=
  if x ∈ l then some (l.erase x) else none

/-- Draw the next value from the injected random stream. -/
def nextRand : List ℕ → ℕ × List ℕ
  | [] => (0, [])
  | r :: rs => (r, rs)

/-- The external `networkx` path queries over the (fixed) residue graph. -/
structure NXPathOracles where
  /-- `nx.single_source_shortest_path(residue_graph, atom, cutoff=3)`:
  the values of the returned dict, in iteration order (each path runs from
  the queried atom to its last node, the dict key). -/
  single_source_shortest_path : ℕ → List (List ℕ)
  /-- `nx.all_simple_paths(residue_graph, atom, destination)`. -/
  all_simple_paths : ℕ → ℕ → List (List ℕ)

/-- Insertion into a Python dict modelled as an insertion-ordered
association list: a new key is appended, an existing key has its value
replaced in place. -/
def dict_insert (d : List (ℕ × List ℕ)) (k : ℕ) (v : List ℕ) :
    List (ℕ × List ℕ) :=
  if d.any (fun kv => kv.1 = k) then
    d.map (fun kv => if kv.1 = k then (k, v) else kv)
  else d ++ [(k, v)]

/-- Line 2479: the dict comprehension `{i[-1]: i for i in paths if
len(i) == 4}` keyed by each path's last node. -/
def path_dict (paths : List (List ℕ)) : List (ℕ × List ℕ) :=
  paths.foldl
    (fun d p => if p.length = 4 then dict_insert d (p.getLastD 0) p else d)
    []

/-- Lines 2481-2500 of `produce_eligible_torsions_list`: the filtering loop
over `(destination, path)` items.  A path is kept when it has 4 nodes, its
destination has a position, its last two edges exist in the current
connectivity graph, and all of `path[1:]` already have positions. -/
def eligible_from_paths (st : PlannerState) (items : List (ℕ × List ℕ)) :
    List (List ℕ) :=
  items.filterMap (fun dp =>
    let destination := dp.1
    let index_path := dp.2
    if index_path.length ≠ 4 ∨ destination ∉ st.atoms_with_positions_set then
      none
    else
      match index_path with
      | [_a, b, c, d] =>
        if ¬ (st.connectivity_graph.has_edge b c = true ∧
            st.connectivity_graph.has_edge c d = true) then none
        else if b ∈ st.atoms_with_positions_set ∧
            c ∈ st.atoms_with_positions_set ∧
            d ∈ st.atoms_with_positions_set then some index_path
        else none
      | _ => none)

/-- Lines 2466-2502: `produce_eligible_torsions_list`.  In the ordinary mode
the candidate `(destination, path)` items come from the shortest-path oracle
(destination = last node of the path); in ring-closure mode the candidate
destinations are the positioned atoms sharing a ring with the queried atom,
the simple-path oracle is consulted for each, and the 4-node paths are
collected into a dict keyed by destination. -/
def produce_eligible_torsions_list (nx : NXPathOracles) (rg : ResidueGraph)
    (st : PlannerState) (atom_group : List ℕ) (ring_closure : Bool) :
    List (List ℕ) :=
  atom_group.flatMap (fun atom_index =>
    let items : List (ℕ × List ℕ) :=
      if ring_closure then
        let atom_ring := rg.cycle_membership atom_index
        let possible_destinations := rg.nodes.filter (fun n =>
          (rg.cycle_membership n).filter (fun c => c ∈ atom_ring) ≠ [] ∧
          n ∈ st.atoms_with_positions_set)
        let shortest_paths_flat :=
          (possible_destinations.map
            (fun pd => nx.all_simple_paths atom_index pd)).flatten
        path_dict shortest_paths_flat
      else
        (nx.single_source_shortest_path atom_index).map
          (fun p => (p.getLastD 0, p))
    eligible_from_paths st items)

/-- Lines 2456-2464: `add_torsion_connectivity`.  Adds the new atom as a
node and, for each of the three consecutive pairs of the torsion, adds the
edge to the connectivity graph when it exists in the residue graph. -/
def add_torsion_connectivity (rg : ResidueGraph) (g : ConnectivityGraph)
    (torsion : List ℕ) : ConnectivityGraph :=
  match torsion with
  | [t0, t1, t2, t3] =>
    [(t0, t1), (t1, t2), (t2, t3)].foldl
      (fun g' pair =>
        if rg.has_edge pair.1 pair.2 = true then g'.add_edge pair else g')
      (g.add_node t0)
  | _ => g

/-- Line 2425: the guard deciding whether a ring-closure search is started
for a ring: `len(cycle_atom_group) > 0 and len(placed_atoms_in_cycle) > 2`,
i.e. at least one ring atom is still unplaced and at least three ring atoms
already have positions. -/
def ring_closure_trigger (cycle_atom_group placed_atoms_in_cycle : List ℕ) :
    Bool :=
  decide (0 < cycle_atom_group.length) &&
  decide (2 < placed_atoms_in_cycle.length)

/-- Proof-trace record of one torsion selection: the eligible-torsions list
the choice was made from, the raw injected random value (the drawn index is
`rand % eligible.length`), and whether the selection happened inside the
constrained ring-closure search.  The trace is instrumentation only: it
never influences the control flow translated from the source. -/
structure ChoiceStep where
  eligible : List (List ℕ)
  rand : ℕ
  isRing : Bool
deriving DecidableEq, Repr

/-- The chosen torsion of a recorded selection step:
`eligible_torsions_list[random_torsion_index]`. -/
def ChoiceStep.chosen (s : ChoiceStep) : List ℕ :=
  s.eligible.getD (s.rand % s.eligible.length) []

/-- The loop state of `_propose_atoms_in_order`: the planner state, the
remaining `atom_group`, the accumulated `atom_torsions` and `logp` lists of
the source, the proof trace, and the remaining random stream. -/
structure LoopState (L : Type) where
  st : PlannerState
  atom_group : List ℕ
  atom_torsions : List (List ℕ)
  logp : List L
  steps : List ChoiceStep
  rands : List ℕ

/-- Lines 2430-2450: the constrained ring-closure `while` loop for one ring.
`npLog` models the external `np.log(1./ntorsions)` (applied to
`ntorsions`).  Each iteration recomputes the eligible torsions in
ring-closure mode, restricts them to torsions whose `[1:]` (or `[:3]`)
atoms are all placed ring atoms, raises (`none`) when the restriction is
empty, draws one uniformly, places its first atom and updates all state.
Recursion is on explicit fuel; exhausting the fuel before the ring is
filled yields `none`. -/
def ring_closure_loop {L : Type} (nx : NXPathOracles) (rg : ResidueGraph)
    (npLog : ℕ → L) : ℕ → LoopState L → List ℕ → List ℕ →
    Option (LoopState L)
  | 0, ls, cycle_atom_group, _ =>
    if cycle_atom_group = [] then some ls else none
  | fuel + 1, ls, cycle_atom_group, placed_atoms_in_cycle =>
    if cycle_atom_group = [] then some ls
    else
      let eligible_torsions_list := produce_eligible_torsions_list nx rg
        ls.st cycle_atom_group true
      let filtered_eligible_torsions_list :=
        eligible_torsions_list.filter (fun torsion =>
          ((torsion.drop 1).all (fun a => a ∈ placed_atoms_in_cycle)) ||
          ((torsion.take 3).all (fun a => a ∈ placed_atoms_in_cycle)))
      if filtered_eligible_torsions_list = [] then none
      else
        let ntorsions := filtered_eligible_torsions_list.length
        let rr := nextRand ls.rands
        let random_torsion :=
          filtered_eligible_torsions_list.getD (rr.1 % ntorsions) []
        let chosen_atom_index := random_torsion.headI
        match eraseStrict ls.atom_group chosen_atom_index,
            eraseStrict cycle_atom_group chosen_atom_index with
        | some atom_group', some cycle_atom_group' =>
          let st' : PlannerState :=
            { atoms_with_positions_set :=
                setInsert ls.st.atoms_with_positions_set chosen_atom_index,
              residue_atoms_with_positions_set :=
                setInsert ls.st.residue_atoms_with_positions_set
                  chosen_atom_index,
              connectivity_graph := add_torsion_connectivity rg
                ls.st.connectivity_graph random_torsion }
          ring_closure_loop nx rg npLog fuel
            { st := st', atom_group := atom_group',
              atom_torsions := ls.atom_torsions ++ [random_torsion],
              logp := ls.logp ++ [npLog ntorsions],
              steps := ls.steps ++
                [⟨filtered_eligible_torsions_list, rr.1, true⟩],
              rands := rr.2 }
            cycle_atom_group' (placed_atoms_in_cycle ++ [chosen_atom_index])
        | _, _ => none

/-- Lines 2419-2452: the `for cycle in unplaced_atoms.keys()` loop.  For
each ring of the just-placed atom (with its precomputed unplaced-atom
list), the placed ring atoms are recomputed from the current residue
position set and the ring-closure search is entered exactly when
`ring_closure_trigger` holds. -/
def close_rings {L : Type} (nx : NXPathOracles) (rg : ResidueGraph)
    (npLog : ℕ → L) (fuel : ℕ) : List (ℕ × List ℕ) → LoopState L →
    Option (LoopState L)
  | [], ls => some ls
  | (cycle, cycle_atom_group) :: rest, ls =>
    let placed_atoms_in_cycle :=
      ls.st.residue_atoms_with_positions_set.filter
        (fun atom_idx => cycle ∈ rg.cycle_membership atom_idx)
    if ring_closure_trigger cycle_atom_group placed_atoms_in_cycle = true then
      match ring_closure_loop nx rg npLog fuel ls cycle_atom_group
          placed_atoms_in_cycle with
      | some ls' => close_rings nx rg npLog fuel rest ls'
      | none => none
    else close_rings nx rg npLog fuel rest ls

/-- Lines 2390-2452: the outer `while len(atom_group) > 0` loop of
`_propose_atoms_in_order`.  Each iteration computes the eligible torsions
(raising when there are none, line 2394), draws one uniformly, places its
first atom, and — when the placed atom belongs to rings — precomputes the
per-ring unplaced-atom dict (line 2417) and runs the ring-closure
searches. -/
def propose_loop {L : Type} (nx : NXPathOracles) (rg : ResidueGraph)
    (npLog : ℕ → L) : ℕ → LoopState L → Option (LoopState L)
  | 0, ls => if ls.atom_group = [] then some ls else none
  | fuel + 1, ls =>
    if ls.atom_group = [] then some ls
    else
      let eligible_torsions_list := produce_eligible_torsions_list nx rg
        ls.st ls.atom_group false
      if eligible_torsions_list = [] then none
      else
        let ntorsions := eligible_torsions_list.length
        let rr := nextRand ls.rands
        let random_torsion := eligible_torsions_list.getD (rr.1 % ntorsions) []
        let chosen_atom_index := random_torsion.headI
        match eraseStrict ls.atom_group chosen_atom_index with
        | none => none
        | some atom_group' =>
          let st' : PlannerState :=
            { atoms_with_positions_set :=
                setInsert ls.st.atoms_with_positions_set chosen_atom_index,
              residue_atoms_with_positions_set :=
                setInsert ls.st.residue_atoms_with_positions_set
                  chosen_atom_index,
              connectivity_graph := add_torsion_connectivity rg
                ls.st.connectivity_graph random_torsion }
          let ls' : LoopState L :=
            { st := st', atom_group := atom_group',
              atom_torsions := ls.atom_torsions ++ [random_torsion],
              logp := ls.logp ++ [npLog ntorsions],
              steps := ls.steps ++ [⟨eligible_torsions_list, rr.1, false⟩],
              rands := rr.2 }
          let cycle_membership := rg.cycle_membership chosen_atom_index
          if cycle_membership = [] then propose_loop nx rg npLog fuel ls'
          else
            let unplaced_atoms := cycle_membership.map (fun cycle =>
              (cycle, atom_group'.filter
                (fun atom_idx => cycle ∈ rg.cycle_membership atom_idx)))
            match close_rings nx rg npLog fuel unplaced_atoms ls' with
            | some ls'' => propose_loop nx rg npLog fuel ls''
            | none => none

/-- Lines 2360-2454: `_propose_atoms_in_order`.  Checks the source's
duplicate-free assertion on the atom group (line 2380) and runs the outer
loop from empty accumulators, returning the torsions, the per-choice
log-probabilities, the proof trace, the final planner state and the unused
remainder of the random stream. -/
def propose_atoms_in_order {L : Type} (nx : NXPathOracles)
    (rg : ResidueGraph) (npLog : ℕ → L) (fuel : ℕ) (st : PlannerState)
    (atom_group : List ℕ) (rands : List ℕ) :
    Option (List (List ℕ) × List L × List ChoiceStep × PlannerState ×
      List ℕ) :=
  if atom_group.Nodup then
    (propose_loop nx rg npLog fuel
      { st := st, atom_group := atom_group, atom_torsions := [],
        logp := [], steps := [], rands := rands }).map
      (fun ls => (ls.atom_torsions, ls.logp, ls.steps, ls.st, ls.rands))
  else none

/-- Lines 2346-2352 of `determine_proposal_order`: the assertion loop
checking, for each torsion in sequence, that `torsion[1:]` is contained in
the set of originally positioned atoms extended by the first atoms of the
preceding torsions. -/
def check_torsion_invariant (positioned : List ℕ) :
    List (List ℕ) → Bool
  | [] => true
  | torsion :: rest =>
    (torsion.drop 1).all (fun a => a ∈ positioned) &&
    check_torsion_invariant (torsion.headI :: positioned) rest

/-- Lines 2319-2358: `determine_proposal_order`.  Plans the heavy atoms,
then the hydrogens (sharing the mutated planner state and random stream),
concatenates, raises when the proposal order is empty, runs the invariant
assertion loop against the original `self._atoms_with_positions`, and
checks the two final assertions on the log-probability list. -/
def determine_proposal_order {L : Type} (nx : NXPathOracles)
    (rg : ResidueGraph) (npLog : ℕ → L) (fuel : ℕ) (st : PlannerState)
    (heavy hydrogens atoms_with_positions : List ℕ) (rands : List ℕ) :
    Option (List (List ℕ) × List L × List ChoiceStep) :=
  match propose_atoms_in_order nx rg npLog fuel st heavy rands with
  | none => none
  | some (heavy_atoms_torsions, heavy_logp, heavy_steps, st1, rands1) =>
    match propose_atoms_in_order nx rg npLog fuel st1 hydrogens rands1 with
    | none => none
    | some (hydrogen_atoms_torsions, hydrogen_logp, hydrogen_steps, _, _) =>
      let proposal_order := heavy_atoms_torsions ++ hydrogen_atoms_torsions
      if proposal_order = [] then none
      else if ¬ check_torsion_invariant atoms_with_positions
          proposal_order = true then none
      else if (heavy_logp ++ hydrogen_logp).isEmpty then none
      else if (heavy_logp ++ hydrogen_logp).length ≠ proposal_order.length
        then none
      else some (proposal_order, heavy_logp ++ hydrogen_logp,
        heavy_steps ++ hydrogen_steps)

/-! ## Claim C1 -/

/-- **C1.** For every proposal call that completes its atom-placement loop,
`_logp_propose` returns a result exactly when the ratio of the sum of the
core (atoms-with-positions) reduced potential and the final accumulated
growth-system reduced potential to the final full-model reduced potential
lies in `(1 - 1e-3, 1 + 1e-3)` — otherwise the assertion at line 642 fails
and no result is returned — and on every returned result, that sum equals
the final full-model reduced potential within a relative tolerance of
`1e-3`. -/
theorem claim_C1_energy_mismatch (logp_proposal
    atoms_with_positions_reduced_potential reduced_potential_energy
    final_context_reduced_potential : ℚ) :
    ((logp_propose_final logp_proposal atoms_with_positions_reduced_potential
        reduced_potential_energy final_context_reduced_potential).isSome ↔
      (1 - ENERGY_MISMATCH_RATIO_THRESHOLD <
          energy_mismatch_ratio atoms_with_positions_reduced_potential
            reduced_potential_energy final_context_reduced_potential ∧
        energy_mismatch_ratio atoms_with_positions_reduced_potential
            reduced_potential_energy final_context_reduced_potential <
          ENERGY_MISMATCH_RATIO_THRESHOLD + 1)) ∧
    ((logp_propose_final logp_proposal atoms_with_positions_reduced_potential
        reduced_potential_energy final_context_reduced_potential).isSome →
      |atoms_with_positions_reduced_potential + reduced_potential_energy -
          final_context_reduced_potential| <
        ENERGY_MISMATCH_RATIO_THRESHOLD *
          |final_context_reduced_potential|) := by
  set s : ℚ := atoms_with_positions_reduced_potential +
    reduced_potential_energy with hs
  set f : ℚ := final_context_reduced_potential with hf
  have hratio : energy_mismatch_ratio atoms_with_positions_reduced_potential
      reduced_potential_energy final_context_reduced_potential = s / f := rfl
  have hiff : (logp_propose_final logp_proposal
      atoms_with_positions_reduced_potential reduced_potential_energy
      final_context_reduced_potential).isSome ↔
      (1 - ENERGY_MISMATCH_RATIO_THRESHOLD < s / f ∧
        s / f < ENERGY_MISMATCH_RATIO_THRESHOLD + 1) := by
    unfold logp_propose_final
    split
    · rename_i h
      unfold energy_mismatch_check at h
      rw [Bool.and_eq_true, decide_eq_true_eq, decide_eq_true_eq] at h
      rw [hratio] at h
      simpa using ⟨h.2, h.1⟩
    · rename_i h
      unfold energy_mismatch_check at h
      rw [Bool.and_eq_true, decide_eq_true_eq, decide_eq_true_eq] at h
      rw [hratio] at h
      simp only [Option.isSome_none, Bool.false_eq_true, false_iff]
      intro hc
      exact h ⟨hc.2, hc.1⟩
  refine ⟨by rw [hiff, hratio], fun hsome => ?_⟩
  obtain ⟨h1, h2⟩ := hiff.mp hsome
  have hT : (0 : ℚ) < ENERGY_MISMATCH_RATIO_THRESHOLD := by
    norm_num [ENERGY_MISMATCH_RATIO_THRESHOLD]
  have hfne : f ≠ 0 := by
    intro h0
    rw [h0, div_zero] at h1
    rw [ENERGY_MISMATCH_RATIO_THRESHOLD] at h1
    norm_num at h1
  have hkey : |s / f - 1| < ENERGY_MISMATCH_RATIO_THRESHOLD :=
    abs_lt.mpr ⟨by linarith, by linarith⟩
  have hsf : s - f = (s / f - 1) * f := by
    field_simp
  calc |s - f| = |s / f - 1| * |f| := by rw [hsf, abs_mul]
    _ < ENERGY_MISMATCH_RATIO_THRESHOLD * |f| :=
        mul_lt_mul_of_pos_right hkey (abs_pos.mpr hfne)

/-- Witness for C1 at a concrete input: core potential `1`, accumulated
growth potential `0`, final potential `1`. -/
theorem claim_C1_energy_mismatch_witness :
    |(1 : ℚ) + 0 - 1| < ENERGY_MISMATCH_RATIO_THRESHOLD * |(1 : ℚ)| :=
  (claim_C1_energy_mismatch 0 1 0 1).2 (by
    norm_num [logp_propose_final, energy_mismatch_check,
      energy_mismatch_ratio, ENERGY_MISMATCH_RATIO_THRESHOLD])

/-! ## Claim C2 -/

/-- Closed form of the accumulation fold at line 591. -/
theorem logp_accumulate_foldl (init : ℚ) (placements : List PlacementRecord) :
    placements.foldl
      (fun logp_proposal p =>
        logp_proposal + p.logp_r + p.logp_theta + p.logp_phi - p.log_detJ)
      init =
    init + (placements.map
      (fun p => p.logp_r + p.logp_theta + p.logp_phi - p.log_detJ)).sum := by
  induction placements generalizing init with
  | nil => simp
  | cons p rest ih =>
    rw [List.foldl_cons, ih, List.map_cons, List.sum_cons]
    ring

/-- **C2.** The total log-probability accumulated by `_logp_propose` equals
the sum of all per-step proposal-order log-probabilities plus, for every
placed atom, that atom's `logp_r + logp_theta + logp_phi` minus
`log|det J|` of its placement. -/
theorem claim_C2_total_logp (logp_choice : List ℚ)
    (placements : List PlacementRecord) :
    logp_propose_accumulate logp_choice placements =
      logp_choice.sum + (placements.map
        (fun p => p.logp_r + p.logp_theta + p.logp_phi - p.log_detJ)).sum :=
  logp_accumulate_foldl logp_choice.sum placements

/-! ## Claim C6 -/

/-- **C6.** Both `_cartesian_to_internal` and `_internal_to_cartesian`
report the Jacobian magnitude `|r² · sin θ|` of the internal-to-Cartesian
change of variables (for the respective `(r, θ)`), and for identical
`(r, θ)` values the two directions return exactly the same `detJ`. -/
theorem claim_C6_jacobian {V : Type}
    (coordinate_numba_cartesian_to_internal : V → V → V → V → ℝ × ℝ × ℝ)
    (coordinate_numba_internal_to_cartesian : V → V → V → ℝ × ℝ × ℝ → V)
    (atom_position bond_position angle_position torsion_position : V)
    (r theta phi : ℝ) :
    ((cartesian_to_internal Real.sin coordinate_numba_cartesian_to_internal
        atom_position bond_position angle_position torsion_position).2 =
      |(coordinate_numba_cartesian_to_internal atom_position bond_position
          angle_position torsion_position).1 ^ 2 *
        Real.sin (coordinate_numba_cartesian_to_internal atom_position
          bond_position angle_position torsion_position).2.1|) ∧
    ((internal_to_cartesian Real.sin coordinate_numba_internal_to_cartesian
        bond_position angle_position torsion_position r theta phi).2 =
      |r ^ 2 * Real.sin theta|) ∧
    (coordinate_numba_cartesian_to_internal atom_position bond_position
        angle_position torsion_position = (r, theta, phi) →
      (cartesian_to_internal Real.sin coordinate_numba_cartesian_to_internal
          atom_position bond_position angle_position torsion_position).2 =
      (internal_to_cartesian Real.sin coordinate_numba_internal_to_cartesian
          bond_position angle_position torsion_position r theta phi).2) := by
  refine ⟨rfl, rfl, fun h => ?_⟩
  simp only [cartesian_to_internal, internal_to_cartesian, h]

/-- Witness for C6 at a concrete input: a conversion kernel reporting
`(r, θ, φ) = (2, 3, 1)` and the matching internal coordinates. -/
theorem claim_C6_jacobian_witness :
    (cartesian_to_internal (V := Unit) Real.sin
      (fun _ _ _ _ => ((2 : ℝ), 3, 1)) () () () ()).2 =
    (internal_to_cartesian (V := Unit) Real.sin
      (fun _ _ _ _ => ()) () () () 2 3 1).2 :=
  (claim_C6_jacobian (fun _ _ _ _ => ((2 : ℝ), 3, 1)) (fun _ _ _ _ => ())
    () () () () 2 3 1).2.2 rfl

/-! ## Claim C9 -/

/-- **C9.** During the torsion PMF computation, every division whose energy
evaluates to not-a-number is assigned negative-infinity log-probability
(zero probability mass, surviving the log-sum-exp normalisation) and the
computation continues; the exception at line 1629 is raised exactly when
all `n_divisions` energies are NaN. -/
theorem claim_C9_nan_handling (beta : ℚ)
    (potential_energies : List (Option ℚ)) (logsumexp_logq : ℚ)
    (n_divisions : ℕ) (hlen : potential_energies.length = n_divisions) :
    (torsion_log_pmf_normalize n_divisions
        (torsion_logq beta potential_energies) logsumexp_logq = none ↔
      ∀ e ∈ potential_energies, e = none) ∧
    (∀ logp_torsions, torsion_log_pmf_normalize n_divisions
        (torsion_logq beta potential_energies) logsumexp_logq =
          some logp_torsions →
      logp_torsions.length = potential_energies.length ∧
      (∀ i, potential_energies.get? i = some none →
        logp_torsions.get? i = some ⊥) ∧
      (∀ i u, potential_energies.get? i = some (some u) →
        logp_torsions.get? i =
          some ((-beta * u - logsumexp_logq : ℚ) : WithBot ℚ))) := by
  have hcount : (torsion_logq beta potential_energies).countP
      (fun x => x.isNone) =
      potential_energies.countP (fun e => e.isNone) := by
    unfold torsion_logq
    rw [List.countP_map]
    congr 1
    funext e
    cases e <;> rfl
  constructor
  · unfold torsion_log_pmf_normalize
    rw [hcount]
    split
    · rename_i h
      simp only [true_iff]
      rw [← hlen] at h
      intro e he
      have := List.countP_eq_length.mp h e he
      simpa using this
    · rename_i h
      constructor
      · intro hc
        exact absurd hc (by simp)
      · intro hall
        exact absurd (by
          rw [← hlen]
          exact List.countP_eq_length.mpr (fun e he => by
            simp [hall e he])) h
  · intro logp_torsions hres
    unfold torsion_log_pmf_normalize at hres
    split at hres
    · exact absurd hres (by simp)
    · rename_i h
      have hlp : logp_torsions = (torsion_logq beta potential_energies).map
          (fun x => Option.elim x ⊥
            (fun v => ((v - logsumexp_logq : ℚ) : WithBot ℚ))) := by
        injection hres with h'
        exact h'.symm
      subst hlp
      refine ⟨by simp [torsion_logq], ?_, ?_⟩
      · intro i hi
        rw [List.get?_map, torsion_logq, List.get?_map, hi]
        rfl
      · intro i u hi
        rw [List.get?_map, torsion_logq, List.get?_map, hi]
        rfl

/-- Witness for C9 at a concrete input: two divisions, one NaN energy and
one finite energy — the computation continues rather than raising. -/
theorem claim_C9_nan_handling_witness :
    torsion_log_pmf_normalize 2 (torsion_logq 1 [some 2, none]) 5 ≠
      none := by
  intro hnone
  have h := (claim_C9_nan_handling 1 [some 2, none] 5 2 rfl).1.mp hnone
  have := h (some 2) (by simp)
  simp at this

/-! ## Claim C10 -/

/-- Rows never written by `_copy_positions` keep their initial value. -/
theorem copy_positions_not_mem {V : Type} (new_to_old_atom_map :
    List (ℕ × ℕ)) (current_positions initial_new_positions : ℕ → V) (n : ℕ)
    (h : n ∉ new_to_old_atom_map.map Prod.fst) :
    copy_positions new_to_old_atom_map current_positions
      initial_new_positions n = initial_new_positions n := by
  induction new_to_old_atom_map generalizing initial_new_positions with
  | nil => rfl
  | cons kv rest ih =>
    simp only [List.map_cons, List.mem_cons, not_or] at h
    unfold copy_positions
    rw [List.foldl_cons]
    have := ih (Function.update initial_new_positions kv.1
      (current_positions kv.2)) h.2
    unfold copy_positions at this
    rw [this, Function.update_noteq h.1]

/-- Rows of mapped atoms hold the mapped counterpart's current position
after `_copy_positions`. -/
theorem copy_positions_mem {V : Type} (new_to_old_atom_map : List (ℕ × ℕ))
    (current_positions initial_new_positions : ℕ → V) (n o : ℕ)
    (hnd : (new_to_old_atom_map.map Prod.fst).Nodup)
    (hmem : (n, o) ∈ new_to_old_atom_map) :
    copy_positions new_to_old_atom_map current_positions
      initial_new_positions n = current_positions o := by
  induction new_to_old_atom_map generalizing initial_new_positions with
  | nil => simp at hmem
  | cons kv rest ih =>
    rw [List.map_cons, List.nodup_cons] at hnd
    rcases List.mem_cons.mp hmem with heq | htail
    · have hk : kv = (n, o) := heq.symm
      subst hk
      unfold copy_positions
      rw [List.foldl_cons]
      have hnotin : n ∉ rest.map Prod.fst := hnd.1
      have := copy_positions_not_mem rest current_positions
        (Function.update initial_new_positions n (current_positions o)) n
        hnotin
      unfold copy_positions at this
      rw [this, Function.update_same]
    · unfold copy_positions
      rw [List.foldl_cons]
      exact ih (Function.update initial_new_positions kv.1
        (current_positions kv.2)) hnd.2 htail

/-- The placement loop's writes do not touch rows it never writes. -/
theorem write_new_atom_positions_not_mem {V : Type}
    (placements : List (ℕ × V)) (positions : ℕ → V) (n : ℕ)
    (h : ∀ p ∈ placements, p.1 ≠ n) :
    write_new_atom_positions placements positions n = positions n := by
  induction placements generalizing positions with
  | nil => rfl
  | cons p rest ih =>
    unfold write_new_atom_positions
    rw [List.foldl_cons]
    have := ih (Function.update positions p.1 p.2)
      (fun q hq => h q (List.mem_cons_of_mem _ hq))
    unfold write_new_atom_positions at this
    rw [this,
      Function.update_noteq (Ne.symm (h p (List.mem_cons_self _ _)))]

/-- **C10.** For every atom in the new-to-old atom map, the positions array
produced by the forward proposal holds exactly the input position of its
mapped counterpart: `_copy_positions` copies each mapped atom's current
position verbatim, and the placement loop's writes (line 546) touch only
rows of newly placed atoms, which are disjoint from the mapped atoms. -/
theorem claim_C10_mapped_positions {V : Type}
    (new_to_old_atom_map : List (ℕ × ℕ))
    (current_positions initial_new_positions : ℕ → V)
    (placements : List (ℕ × V)) (n o : ℕ)
    (hnd : (new_to_old_atom_map.map Prod.fst).Nodup)
    (hmem : (n, o) ∈ new_to_old_atom_map)
    (hdisj : ∀ p ∈ placements, p.1 ∉ new_to_old_atom_map.map Prod.fst) :
    write_new_atom_positions placements
      (copy_positions new_to_old_atom_map current_positions
        initial_new_positions) n = current_positions o := by
  have hkey : n ∈ new_to_old_atom_map.map Prod.fst :=
    List.mem_map.mpr ⟨(n, o), hmem, rfl⟩
  rw [write_new_atom_positions_not_mem placements _ n
    (fun p hp => fun hpn => hdisj p hp (hpn ▸ hkey))]
  exact copy_positions_mem new_to_old_atom_map current_positions
    initial_new_positions n o hnd hmem

/-- Witness for C10 at a concrete input: map `{0 ↦ 2}`, one newly placed
atom at row `1`. -/
theorem claim_C10_mapped_positions_witness :
    write_new_atom_positions [(1, (7 : ℚ))]
      (copy_positions [(0, 2)] (fun _ => (42 : ℚ)) (fun _ => 99)) 0 = 42 :=
  claim_C10_mapped_positions [(0, 2)] (fun _ => (42 : ℚ)) (fun _ => 99)
    [(1, (7 : ℚ))] 0 2 (by decide) (by decide) (by decide)

/-! ## Claim C7 -/

/-- If no remaining element is strictly smaller than the running best,
`np_argmin_aux` keeps the current best index. -/
theorem np_argmin_aux_all_ge (xs : List ℚ) (k best_index : ℕ)
    (best_value : ℚ) (h : ∀ x ∈ xs, best_value ≤ x) :
    np_argmin_aux xs k best_index best_value = best_index := by
  induction xs generalizing k with
  | nil => rfl
  | cons x t ih =>
    unfold np_argmin_aux
    rw [if_neg (not_lt.mpr (h x (List.mem_cons_self _ _)))]
    exact ih (k + 1) (fun y hy => h y (List.mem_cons_of_mem _ hy))

/-- If position `i` of the remaining list holds a value strictly below the
running best, strictly below every earlier remaining value, and at most
every remaining value, `np_argmin_aux` lands on it. -/
theorem np_argmin_aux_min (xs : List ℚ) (i : ℕ) (hi : i < xs.length)
    (k best_index : ℕ) (best_value : ℚ)
    (hbest : xs.get ⟨i, hi⟩ < best_value)
    (hearlier : ∀ j (hj : j < xs.length), j < i →
      xs.get ⟨i, hi⟩ < xs.get ⟨j, hj⟩)
    (hmin : ∀ j (hj : j < xs.length), xs.get ⟨i, hi⟩ ≤ xs.get ⟨j, hj⟩) :
    np_argmin_aux xs k best_index best_value = k + i := by
  induction xs generalizing i k best_index best_value with
  | nil => exact absurd hi (by simp)
  | cons x t ih =>
    match i, hi with
    | 0, hi =>
      have hx : x < best_value := hbest
      unfold np_argmin_aux
      rw [if_pos hx]
      rw [np_argmin_aux_all_ge t (k + 1) k x (fun y hy => by
        obtain ⟨⟨j, hj⟩, rfl⟩ := List.mem_iff_get.mp hy
        exact hmin (j + 1) (by simpa using hj))]
      omega
    | m + 1, hi =>
      have hm : m < t.length := by simpa using hi
      have hgi : (x :: t).get ⟨m + 1, hi⟩ = t.get ⟨m, hm⟩ := rfl
      unfold np_argmin_aux
      by_cases hxb : x < best_value
      · rw [if_pos hxb]
        rw [ih m hm (k + 1) k x
          (by rw [← hgi]; exact hearlier 0 (by simp) (by omega))
          (fun j hj hji => by
            rw [← hgi]
            exact hearlier (j + 1) (by simpa using hj) (by omega))
          (fun j hj => by
            rw [← hgi]
            exact hmin (j + 1) (by simpa using hj))]
        omega
      · rw [if_neg hxb]
        rw [ih m hm (k + 1) best_index best_value (by rw [← hgi]; exact hbest)
          (fun j hj hji => by
            rw [← hgi]
            exact hearlier (j + 1) (by simpa using hj) (by omega))
          (fun j hj => by
            rw [← hgi]
            exact hmin (j + 1) (by simpa using hj))]
        omega

/-- `np.argmin` returns the index of the minimum (first occurrence on
ties): if position `i` is strictly below all earlier positions and at most
all positions, `np_argmin` returns `i`. -/
theorem np_argmin_spec (l : List ℚ) (i : ℕ) (hi : i < l.length)
    (hearlier : ∀ j (hj : j < l.length), j < i →
      l.get ⟨i, hi⟩ < l.get ⟨j, hj⟩)
    (hmin : ∀ j (hj : j < l.length), l.get ⟨i, hi⟩ ≤ l.get ⟨j, hj⟩) :
    np_argmin l = i := by
  match l, hi with
  | x :: t, hi =>
    match i, hi with
    | 0, hi =>
      unfold np_argmin
      exact np_argmin_aux_all_ge t 1 0 x (fun y hy => by
        obtain ⟨⟨j, hj⟩, rfl⟩ := List.mem_iff_get.mp hy
        exact hmin (j + 1) (by simpa using hj))
    | m + 1, hi =>
      have hm : m < t.length := by simpa using hi
      have hgi : (x :: t).get ⟨m + 1, hi⟩ = t.get ⟨m, hm⟩ := rfl
      show np_argmin_aux t 1 0 x = m + 1
      rw [np_argmin_aux_min t m hm 1 0 x
        (by rw [← hgi]; exact hearlier 0 (by simp) (by omega))
        (fun j hj hji => by
          rw [← hgi]
          exact hearlier (j + 1) (by simpa using hj) (by omega))
        (fun j hj => by
          rw [← hgi]
          exact hmin (j + 1) (by simpa using hj))]
      omega

/-- **C7 (amended).** `_torsion_logp` locates the bin by the nearest left
bin edge (`np.argmin(np.abs(phi - phis))`, first match on ties), not by the
containing-bin rule of `_bond_logp`; on a uniform grid of `n` left edges
`x0 + j·w` the two rules agree whenever `phi` lies within half a bin width
above its containing bin's left edge, i.e. `x0 + i·w ≤ phi ≤ x0 + i·w + w/2`
with `i < n` — for such `phi` both select bin `i`. -/
theorem claim_C7_bin_rules_lower_half (x0 w phi : ℚ) (n i : ℕ)
    (hw : 0 < w) (hi : i < n) (hlo : x0 + i * w ≤ phi)
    (hhi : phi ≤ x0 + i * w + w / 2) :
    torsion_bin_index phi (linspace_left_edges x0 w n) = i ∧
    bond_bin_index phi x0 w = (i : ℤ) := by
  have hlen : ((linspace_left_edges x0 w n).map
      (fun p => |phi - p|)).length = n := by
    unfold linspace_left_edges
    rw [List.length_map, List.length_map, List.length_range]
  have hget : ∀ (j : ℕ) (hj : j < ((linspace_left_edges x0 w n).map
      (fun p => |phi - p|)).length),
      ((linspace_left_edges x0 w n).map (fun p => |phi - p|)).get ⟨j, hj⟩ =
        |phi - (x0 + j * w)| := by
    intro j hj
    rw [List.get_eq_getElem, List.getElem_map]
    unfold linspace_left_edges
    rw [List.getElem_map, List.getElem_range]
  have hii : i < ((linspace_left_edges x0 w n).map
      (fun p => |phi - p|)).length := by rw [hlen]; exact hi
  have habs_i : |phi - (x0 + i * w)| = phi - (x0 + i * w) :=
    abs_of_nonneg (by linarith)
  constructor
  · unfold torsion_bin_index
    apply np_argmin_spec _ i hii
    · intro j hj hji
      rw [hget i hii, hget j hj, habs_i]
      have hj1 : (j : ℚ) + 1 ≤ (i : ℚ) := by exact_mod_cast hji
      have hjw : ((j : ℚ) + 1) * w ≤ (i : ℚ) * w :=
        mul_le_mul_of_nonneg_right hj1 (le_of_lt hw)
      have habs_j : |phi - (x0 + j * w)| = phi - (x0 + j * w) :=
        abs_of_nonneg (by nlinarith)
      rw [habs_j]
      nlinarith
    · intro j hj
      rw [hget i hii, hget j hj, habs_i]
      rcases le_or_lt (j : ℚ) (i : ℚ) with hje | hje
      · have hjw : (j : ℚ) * w ≤ (i : ℚ) * w :=
          mul_le_mul_of_nonneg_right hje (le_of_lt hw)
        have habs_j : |phi - (x0 + j * w)| = phi - (x0 + j * w) :=
          abs_of_nonneg (by nlinarith)
        rw [habs_j]
        nlinarith
      · have hj1 : (i : ℚ) + 1 ≤ (j : ℚ) := by
          have : i < j := by exact_mod_cast hje
          exact_mod_cast this
        have hjw : ((i : ℚ) + 1) * w ≤ (j : ℚ) * w :=
          mul_le_mul_of_nonneg_right hj1 (le_of_lt hw)
        have habs_j : |phi - (x0 + j * w)| = (x0 + j * w) - phi :=
          abs_sub_comm phi (x0 + j * w) ▸ abs_of_nonneg (by nlinarith)
        rw [habs_j]
        nlinarith
  · unfold bond_bin_index
    rw [Int.floor_eq_iff]
    constructor
    · rw [le_div_iff hw]
      push_cast
      nlinarith
    · rw [div_lt_iff hw]
      push_cast
      nlinarith

/-- **C7 counterexample.** On the uniform 4-bin grid with left edges
`-8, -4, 0, 4` (bin width 4), the in-support value `phi = 3` lies in bin 2
by the containing-bin rule of `_bond_logp`, but `_torsion_logp`'s
`np.argmin(np.abs(phi - phis))` assigns it to bin 3: the two rules
disagree. -/
theorem claim_C7_counterexample :
    (-8 : ℚ) ≤ 3 ∧ (3 : ℚ) < -8 + 4 * 4 ∧
    torsion_bin_index 3 (linspace_left_edges (-8) 4 4) = 3 ∧
    bond_bin_index 3 (-8) 4 = 2 ∧
    ¬ ((torsion_bin_index 3 (linspace_left_edges (-8) 4 4) : ℤ) =
        bond_bin_index 3 (-8) 4) := by
  have h1 : torsion_bin_index 3 (linspace_left_edges (-8) 4 4) = 3 := by
    norm_num [torsion_bin_index, linspace_left_edges, np_argmin,
      np_argmin_aux, List.range_succ]
  have h2 : bond_bin_index 3 (-8) 4 = 2 := by
    unfold bond_bin_index
    rw [show ((3 : ℚ) - (-8)) / 4 = 11 / 4 by norm_num]
    rw [show (2 : ℤ) = ((2 : ℕ) : ℤ) by norm_num, Int.floor_eq_iff]
    constructor <;> norm_num
  refine ⟨by norm_num, by norm_num, h1, h2, ?_⟩
  rw [h1, h2]
  decide

/-- Witness for the amended C7 theorem at a concrete input: on the same
grid, `phi = 1` lies in the lower half of bin 2 and both rules select
bin 2. -/
theorem claim_C7_bin_rules_lower_half_witness :
    torsion_bin_index 1 (linspace_left_edges (-8) 4 4) = 2 ∧
    bond_bin_index 1 (-8) 4 = (2 : ℤ) :=
  claim_C7_bin_rules_lower_half (-8) 4 1 4 2 (by norm_num) (by norm_num)
    (by norm_num) (by norm_num)

/-! ## Claim C8 -/

/-- The undirected edge relation is symmetric. -/
theorem has_graph_edge_symm (edges : List (ℕ × ℕ)) (a b : ℕ) :
    has_graph_edge edges a b = has_graph_edge edges b a := by
  unfold has_graph_edge
  rw [Bool.or_comm]

/-- An edge present in the connectivity graph is never among the omitted
edges (in either orientation), by construction of `self.omitted_edges`. -/
theorem has_edge_not_omitted (reference_edges connectivity_edges :
    List (ℕ × ℕ)) (a b : ℕ)
    (h : has_graph_edge connectivity_edges a b = true) :
    (a, b) ∉ omitted_edges_of reference_edges connectivity_edges ∧
    (b, a) ∉ omitted_edges_of reference_edges connectivity_edges := by
  constructor
  · intro hmem
    have hcond := (List.mem_filter.mp hmem).2
    simp only [decide_eq_true_eq] at hcond
    exact hcond h
  · intro hmem
    have hcond := (List.mem_filter.mp hmem).2
    simp only [decide_eq_true_eq] at hcond
    exact hcond ((has_graph_edge_symm connectivity_edges b a).trans h)

/-- Every consecutive pair of a path enumerated by
`all_simple_paths_cutoff3` is an edge of the connectivity graph. -/
theorem asp_cutoff3_pairs (connectivity_edges : List (ℕ × ℕ)) (s t : ℕ)
    (p : List ℕ) (hp : p ∈ all_simple_paths_cutoff3 connectivity_edges s t) :
    ∀ pair ∈ p.zip p.tail,
      has_graph_edge connectivity_edges pair.1 pair.2 = true := by
  unfold all_simple_paths_cutoff3 at hp
  rcases List.mem_append.mp hp with hp' | hp'
  · rcases List.mem_append.mp hp' with hp2 | hp3
    · by_cases hc : s ≠ t ∧ has_graph_edge connectivity_edges s t = true
      · rw [if_pos hc] at hp2
        simp only [List.mem_singleton] at hp2
        subst hp2
        intro pair hpair
        simp only [List.tail_cons, List.zip_cons_cons, List.zip_nil_right,
          List.mem_singleton] at hpair
        subst hpair
        exact hc.2
      · rw [if_neg hc] at hp2
        simp at hp2
    · obtain ⟨x, _hx, hfx⟩ := List.mem_filterMap.mp hp3
      simp only [Option.ite_none_right_eq_some, Option.some.injEq] at hfx
      obtain ⟨⟨_, _, _, he1, he2⟩, heq⟩ := hfx
      subst heq
      intro pair hpair
      simp only [List.tail_cons, List.zip_cons_cons, List.zip_nil_right,
        List.mem_cons, List.mem_singleton, List.mem_nil_iff,
        or_false] at hpair
      rcases hpair with rfl | rfl
      · exact he1
      · exact he2
  · obtain ⟨x, _hx, hmem⟩ := List.mem_flatMap.mp hp'
    obtain ⟨y, _hy, hfy⟩ := List.mem_filterMap.mp hmem
    simp only [Option.ite_none_right_eq_some, Option.some.injEq] at hfy
    obtain ⟨⟨_, _, _, _, _, _, he1, he2, he3⟩, heq⟩ := hfy
    subst heq
    intro pair hpair
    simp only [List.tail_cons, List.zip_cons_cons, List.zip_nil_right,
      List.mem_cons, List.mem_singleton, List.mem_nil_iff,
      or_false] at hpair
    rcases hpair with rfl | rfl | rfl
    · exact he1
    · exact he2
    · exact he3

/-- A path all of whose consecutive pairs are connectivity edges never
crosses an omitted edge. -/
theorem zip_pairs_no_cross (reference_edges connectivity_edges :
    List (ℕ × ℕ)) (p : List ℕ)
    (hedges : ∀ pair ∈ p.zip p.tail,
      has_graph_edge connectivity_edges pair.1 pair.2 = true) :
    edge_triple_crosses_omitted
      (omitted_edges_of reference_edges connectivity_edges)
      (p.zip p.tail) = false := by
  unfold edge_triple_crosses_omitted
  rw [List.any_eq_false]
  intro pair hpair
  have h := hedges pair hpair
  have hno := has_edge_not_omitted reference_edges connectivity_edges
    pair.1 pair.2 h
  simp [hno.1, hno.2]

/-- When every enumerated path has exactly 4 nodes, the edge-triple
comprehension of line 2028 succeeds and produces each path's list of
consecutive pairs. -/
theorem mapM_edge_triples (paths : List (List ℕ))
    (hall4 : ∀ p ∈ paths, p.length = 4) :
    paths.mapM (fun e =>
      match e with
      | [a, b, c, d] => some [(a, b), (b, c), (c, d)]
      | _ => none) =
    some (paths.map (fun p => p.zip p.tail)) := by
  induction paths with
  | nil => rfl
  | cons p rest ih =>
    have h4 := hall4 p (List.mem_cons_self _ _)
    obtain ⟨a, b, c, d, rfl⟩ : ∃ a b c d, p = [a, b, c, d] := by
      match p, h4 with
      | [a, b, c, d], _ => exact ⟨a, b, c, d, rfl⟩
    rw [List.mapM_cons,
      ih (fun q hq => hall4 q (List.mem_cons_of_mem _ hq))]
    rfl

/-- **C8 (amended).** A nonbonded 1-4 exception term with positive growth
index and nonzero chargeprod or epsilon is recorded in
`special_terms['omitted_1,4s']` and excluded from the growth system exactly
when *no* connectivity path of at most 3 bonds exists between its two atoms
(such paths consist of connectivity edges and therefore never cross an
omitted edge, so "avoiding omitted edges" holds automatically); otherwise —
provided every such path has exactly 3 bonds (4 nodes), shorter paths
making the construction fail — the term is added to the growth system's
exception force with its growth index. -/
theorem claim_C8_exception_routing (reference_edges connectivity_edges :
    List (ℕ × ℕ)) (p1 p2 : ℕ) (chargeprod epsilon : ℚ) (growth_idx : ℕ)
    (hgrow : 0 < growth_idx) (hnonzero : chargeprod ≠ 0 ∨ epsilon ≠ 0)
    (hall4 : ∀ p ∈ all_simple_paths_cutoff3 connectivity_edges p1 p2,
      p.length = 4) :
    (process_nonbonded_exception connectivity_edges
        (omitted_edges_of reference_edges connectivity_edges) p1 p2
        chargeprod epsilon growth_idx = some .omitted ↔
      all_simple_paths_cutoff3 connectivity_edges p1 p2 = []) ∧
    (process_nonbonded_exception connectivity_edges
        (omitted_edges_of reference_edges connectivity_edges) p1 p2
        chargeprod epsilon growth_idx = some (.custom_bond growth_idx) ↔
      all_simple_paths_cutoff3 connectivity_edges p1 p2 ≠ []) := by
  unfold process_nonbonded_exception
  rw [if_pos ⟨hgrow, hnonzero⟩]
  simp only [mapM_edge_triples _ hall4]
  by_cases hempty : all_simple_paths_cutoff3 connectivity_edges p1 p2 = []
  · rw [hempty]
    simp
  · have hmap : (all_simple_paths_cutoff3 connectivity_edges p1 p2).map
        (fun p => p.zip p.tail) ≠ [] := by
      simpa using hempty
    have hnocross : ((all_simple_paths_cutoff3 connectivity_edges p1
        p2).map (fun p => p.zip p.tail)).any
        (edge_triple_crosses_omitted
          (omitted_edges_of reference_edges connectivity_edges)) = false := by
      rw [List.any_eq_false]
      intro triple htriple
      obtain ⟨p, hp, rfl⟩ := List.mem_map.mp htriple
      rw [Bool.not_eq_true]
      exact zip_pairs_no_cross reference_edges connectivity_edges p
        (asp_cutoff3_pairs connectivity_edges p1 p2 p hp)
    rw [if_neg hmap]
    rw [hnocross]
    simp [hempty]

/-- **C8 counterexample.** On a 5-ring connectivity graph with no omitted
edges (reference graph equal to the connectivity graph), the 1-4 exception
between atoms 0 and 3 (growth index 1, chargeprod 1) has a clean 3-bond
connectivity path `[0,1,2,3]`, so the claim demands that it be added to the
growth system; instead the edge-triple comprehension of line 2028 hits the
2-bond path `[0,4,3]` and raises `IndexError`: the call fails and the term
is neither recorded as omitted nor added. -/
theorem claim_C8_counterexample :
    process_nonbonded_exception [(0, 1), (1, 2), (2, 3), (3, 4), (4, 0)]
      (omitted_edges_of [(0, 1), (1, 2), (2, 3), (3, 4), (4, 0)]
        [(0, 1), (1, 2), (2, 3), (3, 4), (4, 0)]) 0 3 1 0 1 = none ∧
    exists_clean_three_bond_path [(0, 1), (1, 2), (2, 3), (3, 4), (4, 0)]
      (omitted_edges_of [(0, 1), (1, 2), (2, 3), (3, 4), (4, 0)]
        [(0, 1), (1, 2), (2, 3), (3, 4), (4, 0)]) 0 3 = true := by
  constructor
  · decide
  · decide

/-- Witness for the amended C8 theorem at a concrete input: a 3-bond chain
`0-1-2-3` whose only enumerated path is `[0,1,2,3]` — the exception is
added to the growth system with its growth index. -/
theorem claim_C8_exception_routing_witness :
    process_nonbonded_exception [(0, 1), (1, 2), (2, 3)]
      (omitted_edges_of [(0, 1), (1, 2), (2, 3)] [(0, 1), (1, 2), (2, 3)])
      0 3 1 0 1 = some (.custom_bond 1) :=
  (claim_C8_exception_routing [(0, 1), (1, 2), (2, 3)]
    [(0, 1), (1, 2), (2, 3)] 0 3 1 0 1 (by decide) (by decide)
    (by decide)).2.mpr (by decide)

/-! ## Planner invariants (claims C3, C4, C5) -/

/-- Characterisation of a successful `list.remove`. -/
theorem eraseStrict_some {l : List ℕ} {x : ℕ} {l' : List ℕ}
    (h : eraseStrict l x = some l') : x ∈ l ∧ l' = l.erase x := by
  unfold eraseStrict at h
  split at h
  · rename_i hmem
    injection h with h'
    exact ⟨hmem, h'.symm⟩
  · exact absurd h (by simp)

/-- The selection-trace invariant: the accumulated torsion list is exactly
the list of chosen torsions of the recorded steps, the accumulated `logp`
list is exactly `npLog` of each step's eligible-torsion count, and every
recorded step drew from a nonempty eligible list. -/
def TraceOK {L : Type} (npLog : ℕ → L) (ls : LoopState L) : Prop :=
  ls.atom_torsions = ls.steps.map ChoiceStep.chosen ∧
  ls.logp = ls.steps.map (fun s => npLog s.eligible.length) ∧
  ∀ s ∈ ls.steps, s.eligible ≠ []

/-- The ring-closure loop preserves the selection-trace invariant. -/
theorem ring_closure_loop_trace {L : Type} (nx : NXPathOracles)
    (rg : ResidueGraph) (npLog : ℕ → L) :
    ∀ (fuel : ℕ) (ls : LoopState L) (cycle_atom_group
      placed_atoms_in_cycle : List ℕ) (ls' : LoopState L),
      ring_closure_loop nx rg npLog fuel ls cycle_atom_group
        placed_atoms_in_cycle = some ls' →
      TraceOK npLog ls → TraceOK npLog ls' := by
  intro fuel
  induction fuel with
  | zero =>
    intro ls cag placed ls' hres hok
    unfold ring_closure_loop at hres
    split at hres
    · injection hres with h
      exact h ▸ hok
    · exact absurd hres (by simp)
  | succ fuel ih =>
    intro ls cag placed ls' hres hok
    unfold ring_closure_loop at hres
    split at hres
    · injection hres with h
      exact h ▸ hok
    · simp only [] at hres
      split at hres
      · exact absurd hres (by simp)
      · rename_i hfil
        split at hres
        · rename_i atom_group' cycle_atom_group' herase1 herase2
          refine ih _ _ _ _ hres ?_
          obtain ⟨h1, h2, h3⟩ := hok
          refine ⟨?_, ?_, ?_⟩
          · simp only [List.map_append, h1]
            rfl
          · simp only [List.map_append, h2]
            rfl
          · intro s hs
            rcases List.mem_append.mp hs with hs | hs
            · exact h3 s hs
            · simp only [List.mem_singleton] at hs
              subst hs
              exact hfil
        · exact absurd hres (by simp)

/-- The per-ring loop preserves the selection-trace invariant. -/
theorem close_rings_trace {L : Type} (nx : NXPathOracles) (rg : ResidueGraph)
    (npLog : ℕ → L) (fuel : ℕ) :
    ∀ (unplaced_atoms : List (ℕ × List ℕ)) (ls ls' : LoopState L),
      close_rings nx rg npLog fuel unplaced_atoms ls = some ls' →
      TraceOK npLog ls → TraceOK npLog ls' := by
  intro unplaced_atoms
  induction unplaced_atoms with
  | nil =>
    intro ls ls' hres hok
    injection hres with h
    exact h ▸ hok
  | cons entry rest ih =>
    intro ls ls' hres hok
    unfold close_rings at hres
    simp only [] at hres
    split at hres
    · split at hres
      · rename_i ls1 hring
        exact ih _ _ hres
          (ring_closure_loop_trace nx rg npLog fuel _ _ _ _ hring hok)
      · exact absurd hres (by simp)
    · exact ih _ _ hres hok

/-- The outer placement loop preserves the selection-trace invariant. -/
theorem propose_loop_trace {L : Type} (nx : NXPathOracles)
    (rg : ResidueGraph) (npLog : ℕ → L) :
    ∀ (fuel : ℕ) (ls ls' : LoopState L),
      propose_loop nx rg npLog fuel ls = some ls' →
      TraceOK npLog ls → TraceOK npLog ls' := by
  intro fuel
  induction fuel with
  | zero =>
    intro ls ls' hres hok
    unfold propose_loop at hres
    split at hres
    · injection hres with h
      exact h ▸ hok
    · exact absurd hres (by simp)
  | succ fuel ih =>
    intro ls ls' hres hok
    unfold propose_loop at hres
    split at hres
    · injection hres with h
      exact h ▸ hok
    · simp only [] at hres
      split at hres
      · exact absurd hres (by simp)
      · rename_i hel
        split at hres
        · exact absurd hres (by simp)
        · rename_i atom_group' herase
          split at hres
          · refine ih _ _ hres ⟨?_, ?_, ?_⟩
            · simp only [List.map_append, hok.1]
              rfl
            · simp only [List.map_append, hok.2.1]
              rfl
            · intro s hs
              rcases List.mem_append.mp hs with hs | hs
              · exact hok.2.2 s hs
              · simp only [List.mem_singleton] at hs
                subst hs
                exact hel
          · split at hres
            · rename_i ls1 hclose
              refine ih _ _ hres
                (close_rings_trace nx rg npLog fuel _ _ _ hclose
                  ⟨?_, ?_, ?_⟩)
              · simp only [List.map_append, hok.1]
                rfl
              · simp only [List.map_append, hok.2.1]
                rfl
              · intro s hs
                rcases List.mem_append.mp hs with hs | hs
                · exact hok.2.2 s hs
                · simp only [List.mem_singleton] at hs
                  subst hs
                  exact hel
            · exact absurd hres (by simp)

/-- One selection step moves the chosen atom from the remaining group to
the head of the appended torsion: the multiset of already-chosen first
atoms together with the remaining group is preserved by the ring-closure
loop. -/
theorem ring_closure_loop_perm {L : Type} (nx : NXPathOracles)
    (rg : ResidueGraph) (npLog : ℕ → L) :
    ∀ (fuel : ℕ) (ls : LoopState L) (cycle_atom_group
      placed_atoms_in_cycle : List ℕ) (ls' : LoopState L),
      ring_closure_loop nx rg npLog fuel ls cycle_atom_group
        placed_atoms_in_cycle = some ls' →
      (ls'.atom_torsions.map List.headI ++ ls'.atom_group).Perm
        (ls.atom_torsions.map List.headI ++ ls.atom_group) := by
  intro fuel
  induction fuel with
  | zero =>
    intro ls cag placed ls' hres
    unfold ring_closure_loop at hres
    split at hres
    · injection hres with h
      exact h ▸ List.Perm.refl _
    · exact absurd hres (by simp)
  | succ fuel ih =>
    intro ls cag placed ls' hres
    unfold ring_closure_loop at hres
    split at hres
    · injection hres with h
      exact h ▸ List.Perm.refl _
    · simp only [] at hres
      split at hres
      · exact absurd hres (by simp)
      · split at hres
        · rename_i atom_group' cycle_atom_group' herase1 herase2
          obtain ⟨hmem, hag⟩ := eraseStrict_some herase1
          refine (ih _ _ _ _ hres).trans ?_
          rw [List.map_append, List.append_assoc]
          refine List.Perm.append_left _ ?_
          subst hag
          exact (List.perm_cons_erase hmem).symm
        · exact absurd hres (by simp)

/-- The per-ring loop preserves the chosen-atoms/remaining-group
multiset. -/
theorem close_rings_perm {L : Type} (nx : NXPathOracles) (rg : ResidueGraph)
    (npLog : ℕ → L) (fuel : ℕ) :
    ∀ (unplaced_atoms : List (ℕ × List ℕ)) (ls ls' : LoopState L),
      close_rings nx rg npLog fuel unplaced_atoms ls = some ls' →
      (ls'.atom_torsions.map List.headI ++ ls'.atom_group).Perm
        (ls.atom_torsions.map List.headI ++ ls.atom_group) := by
  intro unplaced_atoms
  induction unplaced_atoms with
  | nil =>
    intro ls ls' hres
    injection hres with h
    exact h ▸ List.Perm.refl _
  | cons entry rest ih =>
    intro ls ls' hres
    unfold close_rings at hres
    simp only [] at hres
    split at hres
    · split at hres
      · rename_i ls1 hring
        exact (ih _ _ hres).trans
          (ring_closure_loop_perm nx rg npLog fuel _ _ _ _ hring)
      · exact absurd hres (by simp)
    · exact ih _ _ hres

/-- The outer placement loop preserves the chosen-atoms/remaining-group
multiset. -/
theorem propose_loop_perm {L : Type} (nx : NXPathOracles)
    (rg : ResidueGraph) (npLog : ℕ → L) :
    ∀ (fuel : ℕ) (ls ls' : LoopState L),
      propose_loop nx rg npLog fuel ls = some ls' →
      (ls'.atom_torsions.map List.headI ++ ls'.atom_group).Perm
        (ls.atom_torsions.map List.headI ++ ls.atom_group) := by
  intro fuel
  induction fuel with
  | zero =>
    intro ls ls' hres
    unfold propose_loop at hres
    split at hres
    · injection hres with h
      exact h ▸ List.Perm.refl _
    · exact absurd hres (by simp)
  | succ fuel ih =>
    intro ls ls' hres
    unfold propose_loop at hres
    split at hres
    · injection hres with h
      exact h ▸ List.Perm.refl _
    · simp only [] at hres
      split at hres
      · exact absurd hres (by simp)
      · split at hres
        · exact absurd hres (by simp)
        · rename_i atom_group' herase
          obtain ⟨hmem, hag⟩ := eraseStrict_some herase
          have hstep : ∀ ls1 : LoopState L, ls1.atom_torsions =
              ls.atom_torsions ++ [(produce_eligible_torsions_list nx rg
                ls.st ls.atom_group false).getD ((nextRand ls.rands).1 %
                (produce_eligible_torsions_list nx rg ls.st ls.atom_group
                  false).length) []] → ls1.atom_group = atom_group' →
              (ls1.atom_torsions.map List.headI ++ ls1.atom_group).Perm
                (ls.atom_torsions.map List.headI ++ ls.atom_group) := by
            intro ls1 ht hg
            rw [ht, hg, List.map_append, List.append_assoc]
            refine List.Perm.append_left _ ?_
            subst hag
            exact (List.perm_cons_erase hmem).symm
          split at hres
          · exact (ih _ _ hres).trans (hstep _ rfl rfl)
          · split at hres
            · rename_i ls1 hclose
              exact ((ih _ _ hres).trans
                (close_rings_perm nx rg npLog fuel _ _ _ hclose)).trans
                (hstep _ rfl rfl)
            · exact absurd hres (by simp)

/-- A successful outer placement loop ends with an empty remaining
group. -/
theorem propose_loop_group_nil {L : Type} (nx : NXPathOracles)
    (rg : ResidueGraph) (npLog : ℕ → L) :
    ∀ (fuel : ℕ) (ls ls' : LoopState L),
      propose_loop nx rg npLog fuel ls = some ls' →
      ls'.atom_group = [] := by
  intro fuel
  induction fuel with
  | zero =>
    intro ls ls' hres
    unfold propose_loop at hres
    split at hres
    · rename_i h
      injection hres with h'
      rw [← h']
      exact h
    · exact absurd hres (by simp)
  | succ fuel ih =>
    intro ls ls' hres
    unfold propose_loop at hres
    split at hres
    · rename_i h
      injection hres with h'
      rw [← h']
      exact h
    · simp only [] at hres
      split at hres
      · exact absurd hres (by simp)
      · split at hres
        · exact absurd hres (by simp)
        · split at hres
          · exact ih _ _ hres
          · split at hres
            · exact ih _ _ hres
            · exact absurd hres (by simp)

/-- Each iteration of the constrained ring-closure search places exactly
one atom of the ring group, and the search runs until the ring group is
exhausted: a successful search records exactly one selection step per
initially unplaced ring atom. -/
theorem ring_closure_loop_count {L : Type} (nx : NXPathOracles)
    (rg : ResidueGraph) (npLog : ℕ → L) :
    ∀ (fuel : ℕ) (ls : LoopState L) (cycle_atom_group
      placed_atoms_in_cycle : List ℕ) (ls' : LoopState L),
      ring_closure_loop nx rg npLog fuel ls cycle_atom_group
        placed_atoms_in_cycle = some ls' →
      ls'.steps.length = ls.steps.length + cycle_atom_group.length := by
  intro fuel
  induction fuel with
  | zero =>
    intro ls cag placed ls' hres
    unfold ring_closure_loop at hres
    split at hres
    · rename_i h
      injection hres with h'
      rw [← h', h]
      rfl
    · exact absurd hres (by simp)
  | succ fuel ih =>
    intro ls cag placed ls' hres
    unfold ring_closure_loop at hres
    split at hres
    · rename_i h
      injection hres with h'
      rw [← h', h]
      rfl
    · rename_i hne
      simp only [] at hres
      split at hres
      · exact absurd hres (by simp)
      · split at hres
        · rename_i atom_group' cycle_atom_group' herase1 herase2
          obtain ⟨hmem, hcag⟩ := eraseStrict_some herase2
          have hlen := ih _ _ _ _ hres
          rw [hlen]
          subst hcag
          have h1 : 1 ≤ cag.length := by
            cases cag with
            | nil => exact absurd rfl hne
            | cons a t => simp
          rw [List.length_append, List.length_erase_of_mem hmem]
          simp only [List.length_singleton]
          omega
        · exact absurd hres (by simp)

/-- A recorded selection step's chosen torsion belongs to its eligible
list. -/
theorem chosen_mem_eligible (s : ChoiceStep) (h : s.eligible ≠ []) :
    s.chosen ∈ s.eligible := by
  unfold ChoiceStep.chosen
  have hl : 0 < s.eligible.length := List.length_pos.mpr h
  have hlt : s.rand % s.eligible.length < s.eligible.length :=
    Nat.mod_lt _ hl
  rw [List.getD_eq_getElem _ _ hlt]
  exact List.getElem_mem _

/-- Summary of a successful `_propose_atoms_in_order` run: the first atoms
of the returned torsions are a permutation of the requested atom group, and
the returned torsion/log-probability lists are exactly the chosen torsion
and `npLog` of the eligible-count of each recorded selection step (every
step having a nonempty eligible list). -/
theorem propose_atoms_in_order_spec {L : Type} (nx : NXPathOracles)
    (rg : ResidueGraph) (npLog : ℕ → L) (fuel : ℕ) (st : PlannerState)
    (atom_group rands : List ℕ) (atom_torsions : List (List ℕ))
    (logp : List L) (steps : List ChoiceStep) (st' : PlannerState)
    (rands' : List ℕ)
    (hres : propose_atoms_in_order nx rg npLog fuel st atom_group rands =
      some (atom_torsions, logp, steps, st', rands')) :
    (atom_torsions.map List.headI).Perm atom_group ∧
    atom_torsions = steps.map ChoiceStep.chosen ∧
    logp = steps.map (fun s => npLog s.eligible.length) ∧
    ∀ s ∈ steps, s.eligible ≠ [] := by
  unfold propose_atoms_in_order at hres
  split at hres
  · rw [Option.map_eq_some'] at hres
    obtain ⟨ls', hloop, heq⟩ := hres
    simp only [Prod.mk.injEq] at heq
    obtain ⟨h1, h2, h3, _h4, _h5⟩ := heq
    have hperm := propose_loop_perm nx rg npLog fuel _ _ hloop
    have hnil := propose_loop_group_nil nx rg npLog fuel _ _ hloop
    have htrace := propose_loop_trace nx rg npLog fuel _ _ hloop
      ⟨rfl, rfl, by simp⟩
    rw [hnil] at hperm
    simp only [List.map_nil, List.nil_append, List.append_nil] at hperm
    exact ⟨h1 ▸ hperm, h1 ▸ h3 ▸ htrace.1, h2 ▸ h3 ▸ htrace.2.1,
      h3 ▸ htrace.2.2⟩
  · exact absurd hres (by simp)

/-- The assertion loop of `determine_proposal_order` (lines 2346-2352)
checks exactly the reference-atoms-already-positioned invariant: each
torsion's last three atoms lie in the initially positioned set extended by
the first atoms of the earlier torsions. -/
theorem check_torsion_invariant_spec (order : List (List ℕ)) :
    ∀ (positioned : List ℕ),
      check_torsion_invariant positioned order = true →
      ∀ (i : ℕ) (hi : i < order.length),
        ∀ a ∈ (order.get ⟨i, hi⟩).drop 1,
          a ∈ positioned ∨ a ∈ (order.take i).map List.headI := by
  induction order with
  | nil =>
    intro _ _ i hi
    exact absurd hi (by simp)
  | cons torsion rest ih =>
    intro positioned hchk i hi a ha
    unfold check_torsion_invariant at hchk
    rw [Bool.and_eq_true] at hchk
    match i, hi with
    | 0, hi =>
      have hall := List.all_eq_true.mp hchk.1 a ha
      exact Or.inl (of_decide_eq_true hall)
    | m + 1, hi =>
      have hm : m < rest.length := by simpa using hi
      have hget : (torsion :: rest).get ⟨m + 1, hi⟩ = rest.get ⟨m, hm⟩ := rfl
      rw [hget] at ha
      rcases ih (torsion.headI :: positioned) hchk.2 m hm a ha with h | h
      · rcases List.mem_cons.mp h with h | h
        · right
          rw [List.take_succ_cons, List.map_cons]
          exact h ▸ List.mem_cons_self _ _
        · exact Or.inl h
      · right
        rw [List.take_succ_cons, List.map_cons]
        exact List.mem_cons_of_mem _ h

/-- **C3.** For every proposal order returned by
`determine_proposal_order`, the first atoms of the torsion quadruples are a
permutation of the atoms requested to be placed (heavy atoms and
hydrogens) — so, the requested atoms being distinct, the multiset of first
atoms covers exactly the requested set with each atom appearing once — and
in every quadruple the three reference atoms are already positioned
(originally known, or placed earlier in the same sequence) at the moment
the new atom is chosen. -/
theorem claim_C3_proposal_order {L : Type} (nx : NXPathOracles)
    (rg : ResidueGraph) (npLog : ℕ → L) (fuel : ℕ) (st : PlannerState)
    (heavy hydrogens atoms_with_positions rands : List ℕ)
    (order : List (List ℕ)) (logps : List L) (steps : List ChoiceStep)
    (hres : determine_proposal_order nx rg npLog fuel st heavy hydrogens
      atoms_with_positions rands = some (order, logps, steps))
    (hnd : (heavy ++ hydrogens).Nodup) :
    (order.map List.headI).Perm (heavy ++ hydrogens) ∧
    (order.map List.headI).Nodup ∧
    (∀ a, a ∈ order.map List.headI ↔ a ∈ heavy ++ hydrogens) ∧
    (∀ (i : ℕ) (hi : i < order.length),
      ∀ a ∈ (order.get ⟨i, hi⟩).drop 1,
        a ∈ atoms_with_positions ∨ a ∈ (order.take i).map List.headI) := by
  unfold determine_proposal_order at hres
  split at hres
  · exact absurd hres (by simp)
  · rename_i heavy_t heavy_l heavy_s st1 rands1 hheavy
    split at hres
    · exact absurd hres (by simp)
    · rename_i hydrogen_t hydrogen_l hydrogen_s st2 rands2 hhydrogen
      simp only [] at hres
      split at hres
      · exact absurd hres (by simp)
      · split at hres
        · exact absurd hres (by simp)
        · rename_i hchk
          split at hres
          · exact absurd hres (by simp)
          · split at hres
            · exact absurd hres (by simp)
            · injection hres with hres'
              simp only [Prod.mk.injEq] at hres'
              obtain ⟨horder, hlogps, hsteps⟩ := hres'
              subst horder
              have hspec1 := propose_atoms_in_order_spec nx rg npLog fuel
                st heavy rands _ _ _ _ _ hheavy
              have hspec2 := propose_atoms_in_order_spec nx rg npLog fuel
                st1 hydrogens rands1 _ _ _ _ _ hhydrogen
              have hperm : ((heavy_t ++ hydrogen_t).map List.headI).Perm
                  (heavy ++ hydrogens) := by
                rw [List.map_append]
                exact List.Perm.append hspec1.1 hspec2.1
              have hchk' : check_torsion_invariant atoms_with_positions
                  (heavy_t ++ hydrogen_t) = true := by
                by_contra hc
                exact hchk hc
              refine ⟨hperm, (hperm.nodup_iff).mpr hnd,
                fun a => hperm.mem_iff, ?_⟩
              exact check_torsion_invariant_spec (heavy_t ++ hydrogen_t)
                atoms_with_positions hchk'


/-! ### Concrete planner configuration for the witnesses and the triangle
scenario of claim C5

Residue graph: a three-atom ring `{0, 1, 2}` (one cycle, id 0) with a tail
`0-3-4`; atoms `0, 1, 3, 4` already have positions and the single new heavy
atom `2` (the third ring atom) is to be placed.  The shortest-path oracle
reproduces `nx.single_source_shortest_path(residue_graph, 2, cutoff=3)`:
paths `[2]`, `[2,1]`, `[2,0]`, `[2,0,3]`, `[2,0,3,4]`.  The initial
connectivity graph holds the non-new atoms and their bonds, as built in
`NetworkXProposalOrder.__init__` (lines 2306-2316). -/

/-- Residue graph of the triangle scenario. -/
def triangle_rg : ResidueGraph :=
  { nodes := [0, 1, 2, 3, 4],
    edges := [(0, 1), (1, 2), (0, 2), (0, 3), (3, 4)],
    cycle_membership := fun n => if n < 3 then [0] else [] }

/-- Path oracles of the triangle scenario. -/
def triangle_nx : NXPathOracles :=
  { single_source_shortest_path := fun a =>
      if a = 2 then [[2], [2, 1], [2, 0], [2, 0, 3], [2, 0, 3, 4]] else [],
    all_simple_paths := fun _ _ => [] }

/-- Initial planner state of the triangle scenario. -/
def triangle_st : PlannerState :=
  { atoms_with_positions_set := [0, 1, 3, 4],
    residue_atoms_with_positions_set := [0, 1, 3, 4],
    connectivity_graph :=
      { nodes := [0, 1, 3, 4], edges := [(0, 1), (0, 3), (3, 4)] } }

/-- **C4.** At every selection step of the planner (ordinary and
ring-closure alike), the torsion is drawn from the eligible-torsions list
computed at that step — the injected random index is reduced modulo the
list's length `N`, so the draw is uniform over all `N` eligible torsions —
the log-probability recorded for the step is `np.log(1/N)` for that same
`N`, and the planner returns exactly one log-probability per chosen
torsion, in the same order as the torsions. -/
theorem claim_C4_uniform_choice (nx : NXPathOracles) (rg : ResidueGraph)
    (fuel : ℕ) (st : PlannerState) (atom_group rands : List ℕ)
    (atom_torsions : List (List ℕ)) (logp : List ℝ)
    (steps : List ChoiceStep) (st' : PlannerState) (rands' : List ℕ)
    (hres : propose_atoms_in_order nx rg
      (fun ntorsions => Real.log (1 / (ntorsions : ℝ))) fuel st atom_group
      rands = some (atom_torsions, logp, steps, st', rands')) :
    logp.length = atom_torsions.length ∧
    logp = steps.map (fun s => Real.log (1 / (s.eligible.length : ℝ))) ∧
    atom_torsions = steps.map ChoiceStep.chosen ∧
    ∀ s ∈ steps, 0 < s.eligible.length ∧
      s.chosen = s.eligible.getD (s.rand % s.eligible.length) [] ∧
      s.chosen ∈ s.eligible := by
  obtain ⟨_hperm, ht, hl, hne⟩ := propose_atoms_in_order_spec nx rg
    (fun ntorsions => Real.log (1 / (ntorsions : ℝ))) fuel st atom_group
    rands _ _ _ _ _ hres
  refine ⟨?_, hl, ht, ?_⟩
  · rw [ht, hl]
    simp
  · intro s hs
    exact ⟨List.length_pos.mpr (hne s hs), rfl,
      chosen_mem_eligible s (hne s hs)⟩

/-- Witness for C4 at the concrete triangle configuration: one selection
step with a single eligible torsion. -/
theorem claim_C4_uniform_choice_witness :
    ([Real.log (1 / ((1 : ℕ) : ℝ))].length =
      ([[2, 0, 3, 4]] : List (List ℕ)).length) ∧
    [Real.log (1 / ((1 : ℕ) : ℝ))] =
      ([⟨[[2, 0, 3, 4]], 0, false⟩] : List ChoiceStep).map
        (fun s => Real.log (1 / (s.eligible.length : ℝ))) :=
  have h := claim_C4_uniform_choice triangle_nx triangle_rg 20 triangle_st
    [2] [0] [[2, 0, 3, 4]] [Real.log (1 / ((1 : ℕ) : ℝ))]
    [⟨[[2, 0, 3, 4]], 0, false⟩]
    { atoms_with_positions_set := [2, 0, 1, 3, 4],
      residue_atoms_with_positions_set := [2, 0, 1, 3, 4],
      connectivity_graph :=
        { nodes := [0, 1, 3, 4, 2],
          edges := [(0, 1), (0, 3), (3, 4), (2, 0), (0, 3), (3, 4)] } }
    [] rfl
  ⟨h.1, h.2.1⟩

/-- Witness for C3 at the concrete triangle configuration. -/
theorem claim_C3_proposal_order_witness :
    (([[2, 0, 3, 4]] : List (List ℕ)).map List.headI).Perm ([2] ++ []) :=
  (claim_C3_proposal_order triangle_nx triangle_rg (fun n => n) 20
    triangle_st [2] [] [0, 1, 3, 4] [0] [[2, 0, 3, 4]] [1]
    [⟨[[2, 0, 3, 4]], 0, false⟩] (by decide) (by decide)).1

/-- **C5.** The planner enters the constrained ring-closure torsion search
for a ring exactly when at least one ring atom is still unplaced and at
least three ring atoms are already positioned (`ring_closure_trigger`,
line 2425); an entered search runs until the ring is filled, placing every
initially unplaced ring atom (one recorded selection step each); and in the
concrete triangle scenario — a three-atom ring in which two atoms already
have positions — placing the third ring atom records a single *ordinary*
(non-ring-closure) selection step and triggers no ring-closure search. -/
theorem claim_C5_ring_trigger :
    (∀ cycle_atom_group placed_atoms_in_cycle : List ℕ,
      ring_closure_trigger cycle_atom_group placed_atoms_in_cycle = true ↔
        (1 ≤ cycle_atom_group.length ∧
          3 ≤ placed_atoms_in_cycle.length)) ∧
    (∀ (L : Type) (nx : NXPathOracles) (rg : ResidueGraph) (npLog : ℕ → L)
      (fuel : ℕ) (ls : LoopState L)
      (cycle_atom_group placed_atoms_in_cycle : List ℕ)
      (ls' : LoopState L),
      ring_closure_loop nx rg npLog fuel ls cycle_atom_group
        placed_atoms_in_cycle = some ls' →
      ls'.steps.length = ls.steps.length + cycle_atom_group.length) ∧
    (determine_proposal_order triangle_nx triangle_rg (fun n => n) 20
      triangle_st [2] [] [0, 1, 3, 4] [0] =
      some ([[2, 0, 3, 4]], [1], [⟨[[2, 0, 3, 4]], 0, false⟩]) ∧
      ([⟨[[2, 0, 3, 4]], 0, false⟩] : List ChoiceStep).map ChoiceStep.isRing
        = [false]) := by
  refine ⟨?_, ?_, by decide, by decide⟩
  · intro g p
    unfold ring_closure_trigger
    rw [Bool.and_eq_true, decide_eq_true_eq, decide_eq_true_eq]
    omega
  · intro L nx rg npLog fuel ls cag placed ls' hres
    exact ring_closure_loop_count nx rg npLog fuel ls cag placed ls' hres

/-- Witness for C5 at concrete inputs: a ring with one unplaced atom and
three placed atoms triggers the ring-closure search. -/
theorem claim_C5_ring_trigger_witness :
    ring_closure_trigger [7] [1, 2, 3] = true :=
  (claim_C5_ring_trigger.1 [7] [1, 2, 3]).mpr (by decide)

end PersesGeometry
